import Mathlib

/-!
Verification of the tradai-platform dashboard UI logic.

This file shallowly embeds the algorithmic core of the repository's
React dashboard:

* the generic sortable/selectable/paginated table
  (`ui/src/components/CollapsibleTable.tsx`): `stableSort`,
  `descendingComparator`, `getComparator`, and the state handlers
  `handleRequestSort`, `handleSelectAllClick`, `handleClick`,
  `handleChangePage`, `handleChangeRowsPerPage`;
* the batch-action modals (`ui/src/Strategy/ActionToolbar.tsx`):
  `stratKey`, `handleSaveState`, `handleResetModels`,
  `handleLifecycleCmd`, and the toolbar's selected-row resolution;
* the extended strategy columns (`ui/src/Strategy/Strategy.tsx`):
  the eager `JSON.parse` cell renderers;
* the settings endpoint resolver (`ui/src/Settings/Settings.tsx`):
  `servers` and `currentGraphQLUri`.

JavaScript promises settling are modelled with `Except` (resolve = `.ok`,
reject = `.error`), `Promise.all` as a sequence that rejects when any
element rejects, and `Object.assign` as left-to-right map assignment.
Cell values compared by the column comparator are modelled over an
arbitrary linear order `V` (the source restricts them to
`number | string`, both natively ordered).
-/

namespace Tradai

/-- Sort direction: `type Order = 'asc' | 'desc'`. -/
inductive Order where
  | asc
  | desc
deriving DecidableEq, Repr

/-- A table row: a unique string `id` plus an open bag of named fields
(`type Data = { [key: string]: any; id: string }`).  Field values are
modelled in a linear order `V` (the comparator's domain is
`number | string`). -/
structure Row (V : Type) where
  id : String
  fields : String → V

variable {V : Type} [LinearOrder V]

/-- `descendingComparator<T>(a, b, orderBy)` from `CollapsibleTable.tsx`:
`-1` when `b[orderBy] < a[orderBy]`, `1` when `b[orderBy] > a[orderBy]`,
else `0`. -/
def descendingComparator (a b : Row V) (orderBy : String) : Int :=
  if b.fields orderBy < a.fields orderBy then -1
  else if b.fields orderBy > a.fields orderBy then 1
  else 0

/-- `getComparator(order, orderBy)`: the descending comparator for `'desc'`,
its numeric negation for `'asc'`. -/
def getComparator (order : Order) (orderBy : String) : Row V → Row V → Int :=
  match order with
  | .desc => fun a b => descendingComparator a b orderBy
  | .asc => fun a b => -descendingComparator a b orderBy

/-- Helper for the proofs: the strict order on a column's values induced by
the sort direction (`asc`: increasing, `desc`: decreasing). -/
def colLt (o : Order) (k : String) (a b : Row V) : Prop :=
  match o with
  | .asc => a.fields k < b.fields k
  | .desc => b.fields k < a.fields k

/-- The decorated comparator used inside `stableSort`:
`const order = comparator(a[0], b[0]); if (order !== 0) return order;
return a[1] - b[1]`. -/
def stabCmp {α : Type} (comparator : α → α → Int) (a b : α × Nat) : Int :=
  if comparator a.1 b.1 ≠ 0 then comparator a.1 b.1
  else (a.2 : Int) - (b.2 : Int)

/-- Order relation induced by `stabCmp`: `a` sorts no later than `b`. -/
def stabLE {α : Type} (comparator : α → α → Int) (a b : α × Nat) : Prop :=
  stabCmp comparator a b ≤ 0

instance {α : Type} (c : α → α → Int) : DecidableRel (stabLE c) :=
  fun a b => Int.decLe (stabCmp c a b) 0

/-- `array.map((el, index) => [el, index])`: each element decorated with its
original index. -/
def stabilized {α : Type} (array : List α) : List (α × Nat) :=
  array.enum.map fun p => (p.2, p.1)

/-- `stableSort<T>(array, comparator)` from `CollapsibleTable.tsx`: decorate
with indices, sort by the comparator with the index difference as
tie-break, strip the indices.  `Array.prototype.sort` is modelled by
insertion sort: the index tie-break makes the decorated comparator a total
order with a unique sorted permutation, which any correct (ES2019: stable)
sort produces. -/
def stableSort {α : Type} (array : List α) (comparator : α → α → Int) : List α :=
  let stabilizedThis := stabilized array
  let sorted := stabilizedThis.insertionSort (stabLE comparator)
  sorted.map fun el => el.1

/-- The `CollapsibleTable` component's `useState` cells. -/
structure TableState where
  order : Order
  orderBy : String
  selected : List String
  dense : Bool
  page : Nat
  rowsPerPage : Nat
deriving DecidableEq, Repr

/-- Initial state: ascending on `defaultSortCol`, nothing selected, page 0,
5 rows per page, not dense. -/
def initialState (defaultSortCol : String) : TableState :=
  { order := .asc
    orderBy := defaultSortCol
    selected := []
    dense := false
    page := 0
    rowsPerPage := 5 }

/-- `handleRequestSort`: if the clicked column was already active and
ascending, flip to descending, otherwise reset to ascending; the clicked
column becomes the active one. -/
def handleRequestSort (st : TableState) (property : String) : TableState :=
  let isAsc := st.orderBy = property ∧ st.order = Order.asc
  { st with
    order := if isAsc then Order.desc else Order.asc
    orderBy := property }

/-- `handleSelectAllClick`: when checked, select every row id; otherwise
clear the selection. -/
def handleSelectAllClick (rows : List (Row V)) (st : TableState)
    (checked : Bool) : TableState :=
  if checked then { st with selected := rows.map Row.id }
  else { st with selected := [] }

/-- JavaScript `Array.prototype.indexOf`: index of the first occurrence, or
`-1` when absent. -/
def jsIndexOf (l : List String) (a : String) : Int :=
  match l with
  | [] => -1
  | x :: xs =>
    if x = a then 0
    else if jsIndexOf xs a = -1 then -1 else jsIndexOf xs a + 1

/-- The `newSelected` computation of `handleClick(event, id)`: append the id
when absent; otherwise drop it by position (head / last / middle splice).
The trailing `[]` mirrors the unreachable fall-through of the source's
`else if` chain. -/
def handleClick (selected : List String) (id : String) : List String :=
  let selectedIndex := jsIndexOf selected id
  if selectedIndex = -1 then selected ++ [id]
  else if selectedIndex = 0 then selected.drop 1
  else if selectedIndex = (selected.length : Int) - 1 then selected.dropLast
  else if selectedIndex > 0 then
    selected.take selectedIndex.toNat ++ selected.drop (selectedIndex.toNat + 1)
  else []

/-- `handleChangePage`: set the page index. -/
def handleChangePage (st : TableState) (newPage : Nat) : TableState :=
  { st with page := newPage }

/-- `handleChangeRowsPerPage`: set the page size and reset the page index
to 0. -/
def handleChangeRowsPerPage (st : TableState) (value : Nat) : TableState :=
  { st with rowsPerPage := value, page := 0 }

/-- `handleChangeDense`: display-only density toggle. -/
def handleChangeDense (st : TableState) (checked : Bool) : TableState :=
  { st with dense := checked }

/-- JavaScript `Array.prototype.slice(a, b)`: the elements of positions
`[a, b)`. -/
def jsSlice {α : Type} (l : List α) (a b : Nat) : List α :=
  (l.drop a).take (b - a)

/-- The table body's render pipeline:
`stableSort(rows, getComparator(order, orderBy))
  .slice(page * rowsPerPage, page * rowsPerPage + rowsPerPage)`. -/
def displayedRows (rows : List (Row V)) (st : TableState) : List (Row V) :=
  jsSlice (stableSort rows (getComparator st.order st.orderBy))
    (st.page * st.rowsPerPage) (st.page * st.rowsPerPage + st.rowsPerPage)

/-- UI events the table component reacts to. -/
inductive Event where
  | requestSort (property : String)
  | selectAll (checked : Bool)
  | click (id : String)
  | changePage (n : Nat)
  | changeRowsPerPage (v : Nat)
  | changeDense (checked : Bool)

/-- One step of the table component: dispatch an event to its handler. -/
def step (rows : List (Row V)) (st : TableState) : Event → TableState
  | .requestSort property => handleRequestSort st property
  | .selectAll checked => handleSelectAllClick rows st checked
  | .click id => { st with selected := handleClick st.selected id }
  | .changePage n => handleChangePage st n
  | .changeRowsPerPage v => handleChangeRowsPerPage st v
  | .changeDense checked => handleChangeDense st checked

/-- In the rendered UI, a row click handler exists only for rows of the
current row set, so `click` events carry the id of a present row; the other
events are unconstrained. -/
def clickGuard (rows : List (Row V)) : Event → Prop
  | .click id => ∃ r ∈ rows, r.id = id
  | _ => True

/-- Table states reachable over a fixed row set, with clicks restricted to
rendered rows. -/
inductive ReachableFixed (rows : List (Row V)) (defaultSortCol : String) :
    TableState → Prop where
  | init : ReachableFixed rows defaultSortCol (initialState defaultSortCol)
  | next (st : TableState) (e : Event) :
      ReachableFixed rows defaultSortCol st → clickGuard rows e →
      ReachableFixed rows defaultSortCol (step rows st e)

/-- The component together with its `rows` prop. -/
structure ModelState (V : Type) where
  rows : List (Row V)
  table : TableState

/-- Full reachability: the `rows` prop may be replaced at any time (query
refetch, extended-table toggle) while the component's `useState` cells —
including `selected` — persist unchanged. -/
inductive ReachableUI (defaultSortCol : String) : ModelState V → Prop where
  | init (rows : List (Row V)) :
      ReachableUI defaultSortCol ⟨rows, initialState defaultSortCol⟩
  | next (s : ModelState V) (e : Event) :
      ReachableUI defaultSortCol s → clickGuard s.rows e →
      ReachableUI defaultSortCol ⟨s.rows, step s.rows s.table e⟩
  | rowsChanged (s : ModelState V) (newRows : List (Row V)) :
      ReachableUI defaultSortCol s → ReachableUI defaultSortCol ⟨newRows, s.table⟩

/-- A strategy's identity: `(type, id)` from the `strats` query. -/
structure Strat where
  type : String
  id : String
deriving DecidableEq, Repr

/-- `stratKey(strat)`: the composite response-map key
``${strat.id}_${strat.type}``. -/
def stratKey (strat : Strat) : String :=
  strat.id ++ "_" ++ strat.type

/-- `enum StrategyLifecycleCmd` from the generated bindings. -/
inductive StrategyLifecycleCmd where
  | Restart
  | StopTrading
  | ResumeTrading
deriving DecidableEq, Repr

/-- `enum MutableField` from the generated bindings. -/
inductive MutableField where
  | NominalPosition
  | ValueStrat
  | Pnl
  | PreviousValueStrat
deriving DecidableEq, Repr

/-- The `fm: StateFieldMutation` mutation variable. -/
structure StateFieldMutation where
  field : MutableField
  value : Int
deriving DecidableEq, Repr

/-- The `mr: ModelReset` mutation variable. -/
structure ModelReset where
  name : Option String
  restartAfter : Bool
  stopTrading : Bool
deriving DecidableEq, Repr

/-- Apollo's resolved mutation result, destructured as `{ data, errors }`. -/
structure FetchResult (δ : Type) where
  data : Option δ
  errors : Option String
deriving DecidableEq, Repr

/-- The settled outcome of one mutation promise: resolved with a
`FetchResult`, or rejected with an error. -/
def MutateOutcome (δ : Type) : Type :=
  Except String (FetchResult δ)

/-- Payload of the `changeStratState` mutation (`state(tk, fm)`, a
boolean). -/
structure ChangeStratStateData where
  state : Bool
deriving DecidableEq, Repr

/-- Payload of the `resetModel` mutation (`resetModel(tk, mr)`, a status
enum carried as its serialized name). -/
structure ResetModelData where
  resetModel : String
deriving DecidableEq, Repr

/-- A value stored in a modal's response map: `data ? data.<payload> :
errors`. -/
inductive RespValue (π : Type) where
  | fromData (payload : π)
  | fromErrors (errors : Option String)
deriving DecidableEq, Repr

/-- The `responses` state of an action modal, keyed by `stratKey`. -/
def ResponseMap (π : Type) : Type :=
  String → Option (RespValue π)

/-- The initial (empty) response map. -/
def emptyResponses {π : Type} : ResponseMap π :=
  fun _ => none

/-- `Promise.all`: resolves with the list of values when every element
resolves, rejects when any element rejects. -/
def promiseAll {ε α : Type} : List (Except ε α) → Except ε (List α)
  | [] => .ok []
  | x :: xs =>
    match x with
    | .error e => .error e
    | .ok a =>
      match promiseAll xs with
      | .error e => .error e
      | .ok rest => .ok (a :: rest)

/-- One assignment step of `Object.assign`: copy the entry's key/value over
the accumulated object; an `undefined` source is skipped. -/
def assignStep {π : Type} (acc : ResponseMap π)
    (e : Option (String × RespValue π)) : ResponseMap π :=
  match e with
  | none => acc
  | some kv => fun q => if q = kv.1 then some kv.2 else acc q

/-- `Object.assign({}, ...responses)`: left-to-right assignment into a fresh
object. -/
def objectAssign {π : Type} (entries : List (Option (String × RespValue π))) :
    ResponseMap π :=
  entries.foldl assignStep (fun _ => none)

/-- `EditStateModal.handleSaveState`: for each selected strategy, `await` the
`changeStratState` mutation (no rejection handler!), join with
`Promise.all`, and on success replace the response map wholesale.  When any
per-row mutation rejects, `Promise.all` rejects, the `async` handler throws,
and `setResponses` is never reached — the prior `responses` state stays. -/
def handleSaveState
    (changeStratState : StateFieldMutation → Strat → MutateOutcome ChangeStratStateData)
    (mutableField : Option MutableField) (mutableFieldValue : Int)
    (selected : List Strat) (responses : ResponseMap Bool) : ResponseMap Bool :=
  match promiseAll (selected.map fun strat =>
      match mutableField with
      | none => Except.ok none
      | some f =>
        (changeStratState { field := f, value := mutableFieldValue * 1 } strat).map
          fun res =>
            some (stratKey strat,
              match res.data with
              | some d => RespValue.fromData d.state
              | none => RespValue.fromErrors res.errors)) with
  | .ok entries => objectAssign entries
  | .error _ => responses

/-- `ResetModelsModal.handleResetModels`: like `handleSaveState`, but the
mutation promise is settled through `.then(onFulfilled, onRejected)`, so
each element of the `Promise.all` input always resolves — a rejection is
converted into `{ errors: error, data: undefined }` for that row. -/
def handleResetModels
    (resetModel : ModelReset → Strat → MutateOutcome ResetModelData)
    (selected : List Strat) (responses : ResponseMap String) : ResponseMap String :=
  match promiseAll (selected.map fun strat =>
      let settled : FetchResult ResetModelData :=
        match resetModel { name := none, restartAfter := true, stopTrading := true }
            strat with
        | .ok d => { data := d.data, errors := none }
        | .error e => { data := none, errors := some e }
      (Except.ok (some (stratKey strat,
        match settled.data with
        | some d => RespValue.fromData d.resetModel
        | none => RespValue.fromErrors settled.errors)) :
          Except String (Option (String × RespValue String)))) with
  | .ok entries => objectAssign entries
  | .error _ => responses

/-- One `lifecycleCmd` mutation invocation's variables:
`{ tktc: { type, id }, lc }`. -/
structure LifecycleCall where
  type : String
  id : String
  lc : StrategyLifecycleCmd
deriving DecidableEq, Repr

/-- The `ActionToolbar` selected-row resolution:
`selected.map(id => resp.strats.find(s => s.id === id))` — `undefined`
(`none`) when an id has no matching strategy. -/
def toolbarRows (strats : List Strat) (selected : List String) :
    List (Option Strat) :=
  selected.map fun id => strats.find? fun s => s.id == id

/-- `StopStratModal.handleLifecycleCmd`: one `lifecycleCmdMutation` call per
selected row, with that row's `(type, id)` and the chosen command.  The
source dereferences `strat.type`/`strat.id` directly; an `undefined` row
(absent strategy) crashes the handler, modelled as `none`. -/
def handleLifecycleCmd (rows : List (Option Strat))
    (lifecycleCmd : StrategyLifecycleCmd) : Option (List LifecycleCall) :=
  rows.mapM fun r =>
    r.map fun strat => { type := strat.type, id := strat.id, lc := lifecycleCmd }

/-- A parsed JSON object, as far as the renderers look at it: named
properties with displayable values.  Property access on a missing name is
`undefined` (`none`). -/
def JsonObject : Type :=
  List (String × String)

/-- JavaScript property access `parsed.k` on a parsed object. -/
def jsonGet (o : JsonObject) (k : String) : Option String :=
  (o.find? fun p => p.1 == k).map Prod.snd

/-- The `extended_columns` Position cell renderer from `Strategy.tsx`:
`let parsed = JSON.parse(state); return parsed.position`.  `JSON.parse`
(browser builtin) is abstracted as a fallible parser; the renderer has no
`try`/`catch`, so a parse error propagates out of the render. -/
def renderPosition (jsonParse : String → Except String JsonObject)
    (state : String) : Except String (Option String) :=
  match jsonParse state with
  | .ok parsed => .ok (jsonGet parsed "position")
  | .error e => .error e

/-- One named API endpoint (`type HostDef`) from `Settings.tsx`. -/
structure HostDef where
  name : String
  host : String
deriving DecidableEq, Repr, Inhabited

/-- The fixed server list from `Settings.tsx`. -/
def servers : List HostDef :=
  [ { name := "Trader Prod Local", host := "http://localhost:8180" },
    { name := "Trader Dry Local", host := "http://localhost:8187" },
    { name := "Trader Prod VPN", host := "http://10.104.0.2:8180" },
    { name := "Trader Dry VPN", host := "http://10.104.0.2:8187" } ]

/-- `currentGraphQLUri()`: look up `localStorage.getItem('targetHost')`
(`none` when absent) among the servers by host, falling back to
`servers[0]`.  JavaScript `s.host == uri` is false when `uri` is `null`. -/
def currentGraphQLUri (targetHost : Option String) : HostDef :=
  match servers.find? fun s => some s.host == targetHost with
  | some s => s
  | none => servers[0]!

/-- A `JSON.parse` instance for the C9 witness: accepts only the literal
`"{}"`. -/
def jsonParseStub : String → Except String JsonObject :=
  fun s => if s = "{}" then .ok [] else .error "SyntaxError: Unexpected token"

/-- A row with a constant field valuation, for concrete scenarios. -/
def constRow (id : String) (v : Int) : Row Int :=
  { id := id, fields := fun _ => v }

/-- The table state reached in the C4 counterexample scenario. -/
def badTable : TableState :=
  { order := .asc
    orderBy := "id"
    selected := ["r1"]
    dense := false
    page := 0
    rowsPerPage := 5 }

/-- A concrete `changeStratState` environment: the mutation for strategy
`s2` rejects, every other one resolves with `data.state = true`. -/
def saveStateEnv :
    StateFieldMutation → Strat → MutateOutcome ChangeStratStateData :=
  fun _ strat =>
    if strat.id = "s2" then .error "network failure"
    else .ok { data := some { state := true }, errors := none }

/-- A concrete `resetModel` environment: the mutation for strategy `s2`
rejects, every other one resolves with `data.resetModel = "RESET_OK"`. -/
def resetEnv : ModelReset → Strat → MutateOutcome ResetModelData :=
  fun _ strat =>
    if strat.id = "s2" then .error "boom"
    else .ok { data := some { resetModel := "RESET_OK" }, errors := none }

/-- The response value `handleResetModels` records for one row: the payload
when the row's mutation resolved with data, the (cleared) errors field when
it resolved without data, and the rejection error otherwise. -/
def resetRowOutcome
    (resetModel : ModelReset → Strat → MutateOutcome ResetModelData)
    (strat : Strat) : RespValue String :=
  match resetModel { name := none, restartAfter := true, stopTrading := true }
      strat with
  | .ok d =>
    match d.data with
    | some payload => RespValue.fromData payload.resetModel
    | none => RespValue.fromErrors none
  | .error e => RespValue.fromErrors (some e)

/-- C6: for every prior sort state and every clicked column key, the clicked
column becomes the (unique) active column, and the new direction is
descending exactly when the clicked column was already active with
ascending direction — every other prior state yields ascending. -/
theorem claim_C6 (st : TableState) (property : String) :
    (handleRequestSort st property).orderBy = property ∧
      ((handleRequestSort st property).order = Order.desc ↔
        st.orderBy = property ∧ st.order = Order.asc) := by
  unfold handleRequestSort
  refine ⟨rfl, ?_⟩
  by_cases h : st.orderBy = property ∧ st.order = Order.asc
  · simp [h]
  · simp [h]

/-- C8: the displayed rows are exactly the slice
`[page*size, page*size+size)` of the full sorted row set — position `i` of
the display is position `page*size + i` of the sorted rows when `i < size`
and nothing otherwise, and the display's length is the slice's length — and
changing the page size always resets the page index to 0. -/
theorem claim_C8 (rows : List (Row V)) (st : TableState) (i : Nat) (v : Nat) :
    (displayedRows rows st)[i]? =
      (if i < st.rowsPerPage then
        (stableSort rows
          (getComparator st.order st.orderBy))[st.page * st.rowsPerPage + i]?
      else none) ∧
    (displayedRows rows st).length =
      min st.rowsPerPage
        ((stableSort rows (getComparator st.order st.orderBy)).length -
          st.page * st.rowsPerPage) ∧
    (handleChangeRowsPerPage st v).page = 0 ∧
    (handleChangeRowsPerPage st v).rowsPerPage = v := by
  have hb : st.page * st.rowsPerPage + st.rowsPerPage - st.page * st.rowsPerPage
      = st.rowsPerPage := by omega
  refine ⟨?_, ?_, rfl, rfl⟩
  · unfold displayedRows jsSlice
    rw [hb, List.getElem?_take, List.getElem?_drop]
  · unfold displayedRows jsSlice
    rw [hb, List.length_take, List.length_drop]

/-- C9: the extended-columns Position renderer parses the serialized state
field eagerly; whenever the parse of the state string fails, the renderer
propagates that failure (an unhandled exception) and never returns a
fallback value. -/
theorem claim_C9 (jsonParse : String → Except String JsonObject)
    (state : String) (e : String) (h : jsonParse state = .error e) :
    renderPosition jsonParse state = .error e ∧
      ∀ val, renderPosition jsonParse state ≠ .ok val := by
  unfold renderPosition
  rw [h]
  exact ⟨rfl, fun val hv => by cases hv⟩

/-- C9 witness: rendering a row whose state field is not valid JSON raises
rather than producing a value. -/
theorem claim_C9_witness :
    renderPosition jsonParseStub "not json" =
      .error "SyntaxError: Unexpected token" :=
  (claim_C9 jsonParseStub "not json" "SyntaxError: Unexpected token" rfl).1

/-- `jsIndexOf` answers `-1` exactly for absent elements. -/
theorem jsIndexOf_eq_neg_one {l : List String} {a : String} (h : a ∉ l) :
    jsIndexOf l a = -1 := by
  induction l with
  | nil => rfl
  | cons x xs ih =>
    rw [List.mem_cons, not_or] at h
    have hx : ¬x = a := fun he => h.1 he.symm
    simp [jsIndexOf, hx, ih h.2]

/-- For a present element, `jsIndexOf` is a valid index. -/
theorem jsIndexOf_nonneg_of_mem {l : List String} {a : String} (h : a ∈ l) :
    0 ≤ jsIndexOf l a ∧ jsIndexOf l a < l.length := by
  induction l with
  | nil => cases h
  | cons x xs ih =>
    by_cases hx : x = a
    · simp [jsIndexOf, hx]
    · have hmem : a ∈ xs := by
        rcases List.mem_cons.mp h with h1 | h1
        · exact absurd h1.symm hx
        · exact h1
      obtain ⟨h0, hlt⟩ := ih hmem
      have hne : jsIndexOf xs a ≠ -1 := by omega
      simp only [jsIndexOf, if_neg hx, if_neg hne, List.length_cons]
      constructor <;> [omega; (push_cast; omega)]

/-- Splicing out the position found by `jsIndexOf` removes the first
occurrence. -/
theorem take_append_drop_jsIndexOf :
    ∀ {l : List String} {a : String}, a ∈ l →
      l.take (jsIndexOf l a).toNat ++ l.drop ((jsIndexOf l a).toNat + 1) =
        l.erase a := by
  intro l
  induction l with
  | nil => intro a h; cases h
  | cons x xs ih =>
    intro a h
    by_cases hx : x = a
    · subst hx
      simp [jsIndexOf]
    · have hmem : a ∈ xs := by
        rcases List.mem_cons.mp h with h1 | h1
        · exact absurd h1.symm hx
        · exact h1
      have h0 := (jsIndexOf_nonneg_of_mem hmem).1
      have hne : jsIndexOf xs a ≠ -1 := by omega
      have htn : (jsIndexOf xs a + 1).toNat = (jsIndexOf xs a).toNat + 1 := by
        omega
      simp only [jsIndexOf, if_neg hx, if_neg hne, htn, List.take_succ_cons,
        List.drop_succ_cons]
      rw [List.erase_cons_tail (by simpa using hx), List.cons_append]
      exact congrArg (x :: ·) (ih hmem)

/-- Toggling an absent id appends it. -/
theorem handleClick_of_not_mem {s : List String} {id : String} (h : id ∉ s) :
    handleClick s id = s ++ [id] := by
  simp only [handleClick, jsIndexOf_eq_neg_one h, reduceIte]

/-- Toggling a present id removes its (first) occurrence. -/
theorem handleClick_of_mem {s : List String} {id : String} (h : id ∈ s) :
    handleClick s id = s.erase id := by
  obtain ⟨h0, hlt⟩ := jsIndexOf_nonneg_of_mem h
  have key := take_append_drop_jsIndexOf h
  have hne : jsIndexOf s id ≠ -1 := by omega
  simp only [handleClick, if_neg hne]
  by_cases hz : jsIndexOf s id = 0
  · rw [if_pos hz]
    rw [hz] at key
    simpa using key
  · rw [if_neg hz]
    by_cases hl : jsIndexOf s id = (s.length : Int) - 1
    · rw [if_pos hl]
      have htn : (jsIndexOf s id).toNat = s.length - 1 := by omega
      have hlen : s.length - 1 + 1 = s.length := by omega
      rw [htn, hlen, List.drop_length, List.append_nil] at key
      rw [List.dropLast_eq_take, key]
    · rw [if_neg hl, if_pos (by omega : jsIndexOf s id > 0)]
      exact key

/-- C7: over a duplicate-free selection, a single-id toggle adds the id when
absent and removes it when present, and toggling the same id twice restores
the membership state of every id. -/
theorem claim_C7 (s : List String) (id : String) (hnd : s.Nodup) :
    (id ∉ s → id ∈ handleClick s id) ∧
    (id ∈ s → id ∉ handleClick s id) ∧
    (∀ x, x ∈ handleClick (handleClick s id) id ↔ x ∈ s) := by
  refine ⟨?_, ?_, ?_⟩
  · intro h
    rw [handleClick_of_not_mem h]
    simp
  · intro h
    rw [handleClick_of_mem h]
    exact hnd.not_mem_erase
  · intro x
    by_cases h : id ∈ s
    · rw [handleClick_of_mem h, handleClick_of_not_mem hnd.not_mem_erase]
      by_cases hx : x = id
      · subst hx
        simp [h]
      · rw [List.mem_append]
        simp [List.mem_erase_of_ne hx, hx]
    · rw [handleClick_of_not_mem h,
        handleClick_of_mem (by simp : id ∈ s ++ [id]),
        List.erase_append_right _ h]
      simp

/-- C7 witness: toggling the absent id `"b"` into the selection `["a"]`
selects it, and toggling the present id `"a"` deselects it. -/
theorem claim_C7_witness :
    "b" ∈ handleClick ["a"] "b" ∧ "a" ∉ handleClick ["a"] "a" :=
  ⟨(claim_C7 ["a"] "b" (by decide)).1 (by decide),
   (claim_C7 ["a"] "a" (by decide)).2.1 (by decide)⟩

/-- C10: the endpoint resolver is total — it always answers with a member of
the fixed server list — and every stored target-host value that is absent or
matches no server's host resolves to the first server, `Trader Prod
Local`. -/
theorem claim_C10 (targetHost : Option String) :
    currentGraphQLUri targetHost ∈ servers ∧
      ((∀ s ∈ servers, targetHost ≠ some s.host) →
        currentGraphQLUri targetHost =
          { name := "Trader Prod Local", host := "http://localhost:8180" }) := by
  constructor
  · unfold currentGraphQLUri
    split
    · next s hs => exact List.mem_of_find?_eq_some hs
    · decide
  · intro h
    have hfind : (servers.find? fun s => some s.host == targetHost) = none := by
      rw [List.find?_eq_none]
      intro s hs
      simpa using (h s hs).symm
    unfold currentGraphQLUri
    rw [hfind]
    decide

/-- C10 witness: a stored host matching no server resolves to the first
server. -/
theorem claim_C10_witness :
    currentGraphQLUri (some "http://example.com") =
      { name := "Trader Prod Local", host := "http://localhost:8180" } :=
  (claim_C10 (some "http://example.com")).2 (by decide)

/-- Selection invariant over a fixed row set with unique row ids and clicks
restricted to rendered rows: the selection stays duplicate-free and every
selected id is the id of a present row. -/
theorem reachableFixed_selected_inv (rows : List (Row V)) (defCol : String)
    (hids : (rows.map Row.id).Nodup) (st : TableState)
    (h : ReachableFixed rows defCol st) :
    st.selected.Nodup ∧ ∀ id ∈ st.selected, ∃ r ∈ rows, r.id = id := by
  induction h with
  | init => exact ⟨List.nodup_nil, by simp [initialState]⟩
  | next st e hr hguard ih =>
    cases e with
    | requestSort p => exact ih
    | changePage n => exact ih
    | changeRowsPerPage v => exact ih
    | changeDense c => exact ih
    | selectAll checked =>
      cases checked with
      | true =>
        refine ⟨by simpa [step, handleSelectAllClick] using hids, ?_⟩
        intro id hid
        simp only [step, handleSelectAllClick, if_pos] at hid
        obtain ⟨r, hr', hrid⟩ := List.mem_map.mp hid
        exact ⟨r, hr', hrid⟩
      | false => exact ⟨by simp [step, handleSelectAllClick], by simp [step, handleSelectAllClick]⟩
    | click id =>
      obtain ⟨hnd, hsub⟩ := ih
      by_cases hmem : id ∈ st.selected
      · refine ⟨?_, ?_⟩
        · show (handleClick st.selected id).Nodup
          rw [handleClick_of_mem hmem]
          exact hnd.erase id
        · intro x hx
          have hx' : x ∈ handleClick st.selected id := hx
          rw [handleClick_of_mem hmem] at hx'
          exact hsub x (List.mem_of_mem_erase hx')
      · refine ⟨?_, ?_⟩
        · show (handleClick st.selected id).Nodup
          rw [handleClick_of_not_mem hmem, List.nodup_append]
          exact ⟨hnd, by simp, by simpa using hmem⟩
        · intro x hx
          have hx' : x ∈ handleClick st.selected id := hx
          rw [handleClick_of_not_mem hmem] at hx'
          rcases List.mem_append.mp hx' with h1 | h1
          · exact hsub x h1
          · obtain rfl : x = id := by simpa using h1
            exact hguard

/-- C4 counterexample: by clicking row `r1` and then replacing the row set
with the empty list (a refetch), the UI reaches a state whose selection
contains `"r1"` although no row with that id is present — the component
never prunes `selected`, and the toggle itself never consults the row
set. -/
theorem claim_C4_counterexample :
    ReachableUI (V := Int) "id" ⟨[], badTable⟩ ∧ "r1" ∈ badTable.selected ∧
      ∀ r ∈ ([] : List (Row Int)), r.id ≠ "r1" := by
  refine ⟨?_, by decide, by simp⟩
  have h1 : ReachableUI (V := Int) "id" ⟨[constRow "r1" 0], initialState "id"⟩ :=
    ReachableUI.init _
  have h2 : ReachableUI (V := Int) "id"
      ⟨[constRow "r1" 0],
        step [constRow "r1" 0] (initialState "id") (Event.click "r1")⟩ :=
    ReachableUI.next _ (Event.click "r1") h1
      ⟨constRow "r1" 0, List.mem_cons_self _ _, rfl⟩
  have hstep : step [constRow "r1" 0] (initialState "id") (Event.click "r1") =
      badTable := by decide
  rw [hstep] at h2
  exact ReachableUI.rowsChanged _ [] h2

/-- C4 (amended): over a fixed row set with unique row ids, and with
single-id toggles issued only for ids of present rows (as the rendered row
click handlers do), every reachable selection contains only ids of present
rows and `0 ≤ |selection| ≤ |rows|`; however a toggle for an id with no
corresponding row appends that id rather than leaving the selection
unchanged, and replacing the row set does not prune the selection (see the
counterexample). -/
theorem claim_C4_amended (rows : List (Row V)) (defCol : String)
    (st : TableState) (hids : (rows.map Row.id).Nodup)
    (h : ReachableFixed rows defCol st) :
    st.selected.Nodup ∧ (∀ id ∈ st.selected, ∃ r ∈ rows, r.id = id) ∧
      st.selected.length ≤ rows.length := by
  obtain ⟨hnd, hsub⟩ := reachableFixed_selected_inv rows defCol hids st h
  refine ⟨hnd, hsub, ?_⟩
  have hsubset : st.selected ⊆ rows.map Row.id := by
    intro x hx
    obtain ⟨r, hr, hrid⟩ := hsub x hx
    exact hrid ▸ List.mem_map_of_mem Row.id hr
  calc st.selected.length
      ≤ (rows.map Row.id).length :=
        (List.subperm_of_subset hnd hsubset).length_le
    _ = rows.length := List.length_map _ _

/-- C4 witness: the initial state over a one-row set satisfies the amended
invariant. -/
theorem claim_C4_witness :
    (initialState "id").selected.Nodup ∧
    (∀ id ∈ (initialState "id").selected,
      ∃ r ∈ [constRow "r1" 0], r.id = id) ∧
    (initialState "id").selected.length ≤ [constRow "r1" 0].length :=
  claim_C4_amended [constRow "r1" 0] "id" (initialState "id") (by decide)
    ReachableFixed.init

/-- `Promise.all` over promises that all resolve resolves with their
values. -/
theorem promiseAll_map_ok {ε α β : Type} (f : β → α) (l : List β) :
    promiseAll (l.map fun x => (Except.ok (f x) : Except ε α)) =
      .ok (l.map f) := by
  induction l with
  | nil => rfl
  | cons x xs ih => simp [promiseAll, ih]

/-- Assigning entries whose keys all differ from `q` leaves `q`'s value
untouched. -/
theorem foldl_assignStep_not_mem {π : Type} :
    ∀ (sel : List Strat) (acc : ResponseMap π) (f : Strat → RespValue π)
      (q : String), (∀ s ∈ sel, stratKey s ≠ q) →
      (sel.map fun s => some (stratKey s, f s)).foldl assignStep acc q = acc q := by
  intro sel
  induction sel with
  | nil => intro _ _ _ _; rfl
  | cons s rest ih =>
    intro acc f q h
    simp only [List.map_cons, List.foldl_cons]
    rw [ih _ f q fun x hx => h x (List.mem_cons_of_mem _ hx)]
    simp [assignStep, Ne.symm (h s (List.mem_cons_self _ _))]

/-- Looking up a present strategy's key after assigning one entry per
strategy (distinct keys) yields that strategy's own value. -/
theorem foldl_assignStep_lookup {π : Type} :
    ∀ (sel : List Strat) (acc : ResponseMap π) (f : Strat → RespValue π)
      (strat : Strat), (sel.map stratKey).Nodup → strat ∈ sel →
      (sel.map fun s => some (stratKey s, f s)).foldl assignStep acc
        (stratKey strat) = some (f strat) := by
  intro sel
  induction sel with
  | nil => intro _ _ _ _ hmem; cases hmem
  | cons s rest ih =>
    intro acc f strat hnd hmem
    simp only [List.map_cons, List.nodup_cons] at hnd
    simp only [List.map_cons, List.foldl_cons]
    rcases List.mem_cons.mp hmem with heq | hmem'
    · subst heq
      rw [foldl_assignStep_not_mem rest _ f (stratKey strat) ?_]
      · simp [assignStep]
      · intro s' hs' heq'
        exact hnd.1 (heq' ▸ List.mem_map_of_mem stratKey hs')
    · exact ih _ f strat hnd.2 hmem'

/-- `handleResetModels` replaces the response map with one entry per
selected row, each determined solely by that row's own settled outcome. -/
theorem handleResetModels_eq
    (resetModel : ModelReset → Strat → MutateOutcome ResetModelData)
    (selected : List Strat) (responses : ResponseMap String) :
    handleResetModels resetModel selected responses =
      objectAssign (selected.map fun s =>
        some (stratKey s, resetRowOutcome resetModel s)) := by
  unfold handleResetModels
  have hmap : (selected.map fun strat =>
      let settled : FetchResult ResetModelData :=
        match resetModel { name := none, restartAfter := true, stopTrading := true }
            strat with
        | .ok d => { data := d.data, errors := none }
        | .error e => { data := none, errors := some e }
      (Except.ok (some (stratKey strat,
        match settled.data with
        | some d => RespValue.fromData d.resetModel
        | none => RespValue.fromErrors settled.errors)) :
          Except String (Option (String × RespValue String)))) =
      selected.map fun s =>
        Except.ok (some (stratKey s, resetRowOutcome resetModel s)) := by
    apply List.map_congr_left
    intro s _
    unfold resetRowOutcome
    cases h : resetModel { name := none, restartAfter := true, stopTrading := true } s with
    | ok d => cases d.data <;> simp [h]
    | error e => simp [h]
  rw [hmap, promiseAll_map_ok
    (fun s => some (stratKey s, resetRowOutcome resetModel s)) selected]

/-- C1 counterexample: three selected rows where `s2`'s mutation rejects and
`s1`, `s3` resolve; after `EditStateModal.handleSaveState` completes, the
response map contains no entry for any of the three rows — the rejected
sibling aborted the whole `Promise.all` join, so the claimed per-row
success/error entries are absent. -/
theorem claim_C1_counterexample :
    handleSaveState saveStateEnv (some MutableField.NominalPosition) 0
        [⟨"T", "s1"⟩, ⟨"T", "s2"⟩, ⟨"T", "s3"⟩] emptyResponses
        (stratKey ⟨"T", "s1"⟩) = none ∧
    handleSaveState saveStateEnv (some MutableField.NominalPosition) 0
        [⟨"T", "s1"⟩, ⟨"T", "s2"⟩, ⟨"T", "s3"⟩] emptyResponses
        (stratKey ⟨"T", "s2"⟩) = none ∧
    handleSaveState saveStateEnv (some MutableField.NominalPosition) 0
        [⟨"T", "s1"⟩, ⟨"T", "s2"⟩, ⟨"T", "s3"⟩] emptyResponses
        (stratKey ⟨"T", "s3"⟩) = none := by
  decide

/-- C1 (amended): for the reset-models batch action — whose per-row promises
are settled through `.then(onFulfilled, onRejected)` — after the submit
completes the response map contains an entry for every selected row, a
rejected row is recorded as that row's error value, and a per-row failure
does not abort or alter the sibling rows' entries; the edit-state modal
lacks the rejection handler, so there a rejection leaves the response map
unchanged instead (see the counterexample). -/
theorem claim_C1_amended
    (resetModel : ModelReset → Strat → MutateOutcome ResetModelData)
    (selected : List Strat) (responses : ResponseMap String)
    (hkeys : (selected.map stratKey).Nodup) (strat : Strat)
    (hmem : strat ∈ selected) :
    handleResetModels resetModel selected responses (stratKey strat) =
      some (resetRowOutcome resetModel strat) := by
  rw [handleResetModels_eq]
  exact foldl_assignStep_lookup selected _ _ strat hkeys hmem

/-- C1 witness: two selected rows, `s1` resolves and `s2` rejects; the
response map records `s2`'s rejection error and `s1`'s success payload. -/
theorem claim_C1_witness :
    handleResetModels resetEnv [⟨"T", "s1"⟩, ⟨"T", "s2"⟩] emptyResponses
        (stratKey ⟨"T", "s2"⟩) = some (RespValue.fromErrors (some "boom")) ∧
    handleResetModels resetEnv [⟨"T", "s1"⟩, ⟨"T", "s2"⟩] emptyResponses
        (stratKey ⟨"T", "s1"⟩) = some (RespValue.fromData "RESET_OK") := by
  constructor
  · have h := claim_C1_amended resetEnv [⟨"T", "s1"⟩, ⟨"T", "s2"⟩]
      emptyResponses (by decide) ⟨"T", "s2"⟩ (by decide)
    exact h
  · have h := claim_C1_amended resetEnv [⟨"T", "s1"⟩, ⟨"T", "s2"⟩]
      emptyResponses (by decide) ⟨"T", "s1"⟩ (by decide)
    exact h

/-- Resolving present ids and fanning out the lifecycle mutation issues one
call per selected id, carrying that id's strategy `(type, id)` and the
chosen command. -/
theorem lifecycle_calls_spec (strats : List Strat) (lc : StrategyLifecycleCmd) :
    ∀ sel : List String, (∀ id ∈ sel, ∃ s ∈ strats, s.id = id) →
      ∃ calls, handleLifecycleCmd (toolbarRows strats sel) lc = some calls ∧
        calls.length = sel.length ∧
        calls.map LifecycleCall.id = sel ∧
        ∀ c ∈ calls, c.lc = lc ∧ ∃ s ∈ strats, s.id = c.id ∧ s.type = c.type := by
  intro sel
  induction sel with
  | nil => exact fun _ => ⟨[], rfl, rfl, rfl, by simp⟩
  | cons id rest ih =>
    intro hp
    obtain ⟨s0, hs0mem, hs0id⟩ := hp id (List.mem_cons_self _ _)
    have hsome : (strats.find? fun s => s.id == id).isSome := by
      rw [List.find?_isSome]
      exact ⟨s0, hs0mem, by simp [hs0id]⟩
    obtain ⟨sFound, hFound⟩ := Option.isSome_iff_exists.mp hsome
    have hFoundId : sFound.id = id := by simpa using List.find?_some hFound
    have hFoundMem : sFound ∈ strats := List.mem_of_find?_eq_some hFound
    obtain ⟨calls, hcalls, hlen, hmap, hall⟩ :=
      ih fun i hi => hp i (List.mem_cons_of_mem _ hi)
    have hrows : toolbarRows strats (id :: rest) =
        some sFound :: toolbarRows strats rest := by
      simp [toolbarRows, hFound]
    refine ⟨{ type := sFound.type, id := sFound.id, lc := lc } :: calls, ?_,
      by simp [hlen], by simp [hmap, hFoundId], ?_⟩
    · simp only [handleLifecycleCmd] at hcalls ⊢
      rw [hrows, List.mapM_cons, hcalls]
      rfl
    · intro c hc
      rcases List.mem_cons.mp hc with hceq | hcmem
      · subst hceq
        exact ⟨rfl, sFound, hFoundMem, rfl, rfl⟩
      · exact hall c hcmem

/-- C5: with 5 strategies loaded and 2 of them selected, invoking the
send-lifecycle-command action with `ResumeTrading` issues exactly two
lifecycle mutation calls, one per selected row with that row's `(type, id)`
pair, and none for any strategy outside the selection. -/
theorem claim_C5 (strats : List Strat) (sel : List String)
    (_h5 : strats.length = 5) (h2 : sel.length = 2)
    (hpresent : ∀ id ∈ sel, ∃ s ∈ strats, s.id = id) :
    ∃ calls,
      handleLifecycleCmd (toolbarRows strats sel)
        StrategyLifecycleCmd.ResumeTrading = some calls ∧
      calls.length = 2 ∧
      calls.map LifecycleCall.id = sel ∧
      (∀ c ∈ calls, c.lc = StrategyLifecycleCmd.ResumeTrading ∧
        ∃ s ∈ strats, s.id = c.id ∧ s.type = c.type) ∧
      (∀ s ∈ strats, s.id ∉ sel → ∀ c ∈ calls, c.id ≠ s.id) := by
  obtain ⟨calls, hc, hlen, hmap, hall⟩ :=
    lifecycle_calls_spec strats StrategyLifecycleCmd.ResumeTrading sel hpresent
  refine ⟨calls, hc, hlen.trans h2, hmap, hall, ?_⟩
  intro s _ hnot c hc' he
  exact hnot (he ▸ hmap ▸ List.mem_map_of_mem LifecycleCall.id hc')

/-- C5 witness: five concrete strategies with `s2` and `s4` selected. -/
theorem claim_C5_witness :
    ∃ calls,
      handleLifecycleCmd
        (toolbarRows
          [⟨"T", "s1"⟩, ⟨"T", "s2"⟩, ⟨"T", "s3"⟩, ⟨"T", "s4"⟩, ⟨"T", "s5"⟩]
          ["s2", "s4"])
        StrategyLifecycleCmd.ResumeTrading = some calls ∧
      calls.length = 2 ∧
      calls.map LifecycleCall.id = ["s2", "s4"] ∧
      (∀ c ∈ calls, c.lc = StrategyLifecycleCmd.ResumeTrading ∧
        ∃ s ∈ [(⟨"T", "s1"⟩ : Strat), ⟨"T", "s2"⟩, ⟨"T", "s3"⟩, ⟨"T", "s4"⟩,
            ⟨"T", "s5"⟩], s.id = c.id ∧ s.type = c.type) ∧
      (∀ s ∈ [(⟨"T", "s1"⟩ : Strat), ⟨"T", "s2"⟩, ⟨"T", "s3"⟩, ⟨"T", "s4"⟩,
          ⟨"T", "s5"⟩], s.id ∉ ["s2", "s4"] → ∀ c ∈ calls, c.id ≠ s.id) :=
  claim_C5 _ _ rfl rfl (by decide)

/-- Trichotomy for `descendingComparator`, with its value in each case. -/
theorem descendingComparator_cases (a b : Row V) (k : String) :
    (a.fields k < b.fields k ∧ descendingComparator a b k = 1) ∨
    (a.fields k = b.fields k ∧ descendingComparator a b k = 0) ∨
    (b.fields k < a.fields k ∧ descendingComparator a b k = -1) := by
  unfold descendingComparator
  rcases lt_trichotomy (a.fields k) (b.fields k) with h | h | h
  · exact .inl ⟨h, by rw [if_neg (asymm h), if_pos h]⟩
  · refine .inr (.inl ⟨h, ?_⟩)
    have h1 : ¬b.fields k < a.fields k := by rw [h]; exact lt_irrefl _
    have h2 : ¬b.fields k > a.fields k := by rw [h]; exact lt_irrefl _
    rw [if_neg h1, if_neg h2]
  · exact .inr (.inr ⟨h, by rw [if_pos h]⟩)

/-- The decorated order of `stableSort` under `getComparator` is the
lexicographic order on (direction-adjusted column value, original index). -/
theorem stabLE_getComparator_iff (o : Order) (k : String) (p q : Row V × Nat) :
    stabLE (getComparator o k) p q ↔
      (colLt o k p.1 q.1 ∨ (p.1.fields k = q.1.fields k ∧ p.2 ≤ q.2)) := by
  rcases descendingComparator_cases p.1 q.1 k with ⟨hv, hc⟩ | ⟨hv, hc⟩ | ⟨hv, hc⟩ <;>
    cases o <;>
    simp only [stabLE, stabCmp, getComparator, colLt, hc]
  · norm_num [hv]
  · norm_num [hv.le, ne_of_lt hv, asymm hv]
  · constructor <;> intro h
    · exact .inr ⟨hv, by omega⟩
    · rcases h with h | ⟨_, h⟩
      · rw [hv] at h
        exact absurd h (lt_irrefl _)
      · omega
  · constructor <;> intro h
    · exact .inr ⟨hv, by omega⟩
    · rcases h with h | ⟨_, h⟩
      · rw [hv] at h
        exact absurd h (lt_irrefl _)
      · omega
  · norm_num [hv.le, ne_of_gt hv, asymm hv]
  · norm_num [hv]

/-- The decorated order is total. -/
theorem stabLE_total (o : Order) (k : String) (p q : Row V × Nat) :
    stabLE (getComparator o k) p q ∨ stabLE (getComparator o k) q p := by
  rw [stabLE_getComparator_iff, stabLE_getComparator_iff]
  rcases lt_trichotomy (p.1.fields k) (q.1.fields k) with h | h | h
  · cases o
    · exact .inl (.inl h)
    · exact .inr (.inl h)
  · rcases Nat.le_total p.2 q.2 with h2 | h2
    · exact .inl (.inr ⟨h, h2⟩)
    · exact .inr (.inr ⟨h.symm, h2⟩)
  · cases o
    · exact .inr (.inl h)
    · exact .inl (.inl h)

/-- The decorated order is transitive. -/
theorem stabLE_trans (o : Order) (k : String) (p q r : Row V × Nat) :
    stabLE (getComparator o k) p q → stabLE (getComparator o k) q r →
      stabLE (getComparator o k) p r := by
  rw [stabLE_getComparator_iff, stabLE_getComparator_iff,
    stabLE_getComparator_iff]
  intro h1 h2
  rcases h1 with h1 | ⟨he1, hi1⟩ <;> rcases h2 with h2 | ⟨he2, hi2⟩
  · cases o
    · exact .inl (show p.1.fields k < r.1.fields k from
        lt_trans (show p.1.fields k < q.1.fields k from h1)
          (show q.1.fields k < r.1.fields k from h2))
    · exact .inl (show r.1.fields k < p.1.fields k from
        lt_trans (show r.1.fields k < q.1.fields k from h2)
          (show q.1.fields k < p.1.fields k from h1))
  · cases o
    · exact .inl (show p.1.fields k < r.1.fields k from
        lt_of_lt_of_eq (show p.1.fields k < q.1.fields k from h1) he2)
    · exact .inl (show r.1.fields k < p.1.fields k from
        lt_of_eq_of_lt he2.symm (show q.1.fields k < p.1.fields k from h1))
  · cases o
    · exact .inl (show p.1.fields k < r.1.fields k from
        lt_of_eq_of_lt he1 (show q.1.fields k < r.1.fields k from h2))
    · exact .inl (show r.1.fields k < p.1.fields k from
        lt_of_lt_of_eq (show r.1.fields k < q.1.fields k from h2) he1.symm)
  · exact .inr ⟨he1.trans he2, hi1.trans hi2⟩

/-- The insertion sort inside `stableSort` produces a list sorted by the
decorated order. -/
theorem pairwise_insertionSort_stab (o : Order) (k : String)
    (L : List (Row V × Nat)) :
    (L.insertionSort (stabLE (getComparator o k))).Pairwise
      (stabLE (getComparator o k)) := by
  haveI : IsTotal (Row V × Nat) (stabLE (getComparator o k)) :=
    ⟨stabLE_total o k⟩
  haveI : IsTrans (Row V × Nat) (stabLE (getComparator o k)) :=
    ⟨stabLE_trans o k⟩
  exact List.sorted_insertionSort _ L

/-- Two permuted lists, both sorted by a relation that is antisymmetric on
the first list's members, are equal. -/
theorem eq_of_perm_of_pairwise {α : Type} {R : α → α → Prop} :
    ∀ {l₁ l₂ : List α}, l₁.Perm l₂ → l₁.Pairwise R → l₂.Pairwise R →
      (∀ a ∈ l₁, ∀ b ∈ l₁, R a b → R b a → a = b) → l₁ = l₂ := by
  intro l₁
  induction l₁ with
  | nil => exact fun hp _ _ _ => hp.nil_eq
  | cons a t ih =>
    intro l₂ hp h₁ h₂ hA
    cases l₂ with
    | nil => exact absurd hp.eq_nil (by simp)
    | cons b t₂ =>
      have hb1 : b ∈ a :: t := hp.symm.subset (List.mem_cons_self _ _)
      have hab : a = b := by
        have ha2 : a ∈ b :: t₂ := hp.subset (List.mem_cons_self _ _)
        rcases List.mem_cons.mp ha2 with h | hat₂
        · exact h
        · rcases List.mem_cons.mp hb1 with h | hbt
          · exact h.symm
          · exact hA a (List.mem_cons_self _ _) b hb1
              (List.rel_of_pairwise_cons h₁ hbt)
              (List.rel_of_pairwise_cons h₂ hat₂)
      subst hab
      rw [ih hp.cons_inv (List.pairwise_cons.mp h₁).2
        (List.pairwise_cons.mp h₂).2
        fun x hx y hy => hA x (List.mem_cons_of_mem _ hx) y
          (List.mem_cons_of_mem _ hy)]

/-- Decoration preserves length. -/
theorem stabilized_length {α : Type} (l : List α) :
    (stabilized l).length = l.length := by
  simp [stabilized]

/-- The decorated list pairs each element with its position. -/
theorem stabilized_get {α : Type} (l : List α) (i : Fin (stabilized l).length) :
    (stabilized l).get i = (l.get (i.cast (stabilized_length l)), i.1) := by
  rcases i with ⟨i, hi⟩
  simp [stabilized, List.get_eq_getElem, List.getElem_enum]

/-- Stripping the decoration recovers the original list. -/
theorem stabilized_map_fst {α : Type} (l : List α) :
    (stabilized l).map Prod.fst = l := by
  apply List.ext_getElem
  · simp [stabilized]
  · intro i h1 h2
    simp [stabilized, List.getElem_enum]

/-- The decoration indices are distinct. -/
theorem stabilized_snd_nodup {α : Type} (l : List α) :
    ((stabilized l).map Prod.snd).Nodup := by
  have h : (stabilized l).map Prod.snd = l.enum.map Prod.fst := by
    simp [stabilized, List.map_map, Function.comp_def]
  rw [h]
  exact List.nodup_enum_map_fst l

/-- The decoration indices increase along the decorated list. -/
theorem stabilized_pairwise_snd_lt {α : Type} (l : List α) :
    (stabilized l).Pairwise fun p q => p.2 < q.2 := by
  rw [List.pairwise_iff_get]
  intro i j hij
  rw [stabilized_get, stabilized_get]
  exact hij

/-- Every member of the decorated list is an element of `l` paired with its
position. -/
theorem mem_stabilized {α : Type} {l : List α} {p : α × Nat}
    (hp : p ∈ stabilized l) : ∃ i : Fin l.length, p = (l.get i, i.1) := by
  obtain ⟨i, hi⟩ := List.mem_iff_get.mp hp
  refine ⟨i.cast (stabilized_length l), ?_⟩
  rw [← hi, stabilized_get]
  rfl

/-- When the column's values are pairwise distinct, decorated members with
equal column values coincide. -/
theorem stabilized_eq_of_fields_eq (k : String) {l : List (Row V)}
    (hdist : l.Pairwise fun a b => a.fields k ≠ b.fields k)
    {p q : Row V × Nat} (hp : p ∈ stabilized l) (hq : q ∈ stabilized l)
    (hv : p.1.fields k = q.1.fields k) : p = q := by
  obtain ⟨i, rfl⟩ := mem_stabilized hp
  obtain ⟨j, rfl⟩ := mem_stabilized hq
  rcases Nat.lt_trichotomy i.1 j.1 with h | h | h
  · exact absurd hv (List.pairwise_iff_get.mp hdist i j h)
  · rw [Fin.ext h]
  · exact absurd hv.symm (List.pairwise_iff_get.mp hdist j i h)

/-- On any rearrangement of the decorated list, the decorated order is
antisymmetric: mutual ordering forces equal indices, and the indices are
distinct. -/
theorem stabLE_antisymm_mem (o : Order) (k : String) (l : List (Row V))
    {L : List (Row V × Nat)} (hperm : L.Perm (stabilized l)) :
    ∀ p ∈ L, ∀ q ∈ L, stabLE (getComparator o k) p q →
      stabLE (getComparator o k) q p → p = q := by
  intro p hp q hq h1 h2
  rw [stabLE_getComparator_iff] at h1 h2
  have hv : p.1.fields k = q.1.fields k := by
    rcases h1 with h1 | ⟨he, _⟩
    · rcases h2 with h2 | ⟨he, _⟩
      · cases o
        · exact absurd (show q.1.fields k < p.1.fields k from h2)
            (lt_asymm (show p.1.fields k < q.1.fields k from h1))
        · exact absurd (show p.1.fields k < q.1.fields k from h2)
            (lt_asymm (show q.1.fields k < p.1.fields k from h1))
      · exact he.symm
    · exact he
  have hi : p.2 = q.2 := by
    rcases h1 with h1 | ⟨_, hi1⟩
    · cases o
      · have h1x : p.1.fields k < q.1.fields k := h1
        rw [hv] at h1x
        exact absurd h1x (lt_irrefl _)
      · have h1x : q.1.fields k < p.1.fields k := h1
        rw [hv] at h1x
        exact absurd h1x (lt_irrefl _)
    · rcases h2 with h2 | ⟨_, hi2⟩
      · cases o
        · have h2x : q.1.fields k < p.1.fields k := h2
          rw [hv] at h2x
          exact absurd h2x (lt_irrefl _)
        · have h2x : p.1.fields k < q.1.fields k := h2
          rw [hv] at h2x
          exact absurd h2x (lt_irrefl _)
      · exact Nat.le_antisymm hi1 hi2
  have hnodup : (L.map Prod.snd).Nodup :=
    ((hperm.map Prod.snd).nodup_iff).mpr (stabilized_snd_nodup l)
  exact List.inj_on_of_nodup_map hnodup hp hq hi

/-- C2: for every row list, active sort column and direction, the sort is
stable — for each column value `v`, the subsequence of output rows whose
active-column value is `v` is exactly the corresponding subsequence of the
input, so rows with equal values keep their original relative order
(index-based tie-break). -/
theorem claim_C2 (o : Order) (k : String) (l : List (Row V)) (v : V) :
    (stableSort l (getComparator o k)).filter
        (fun r => decide (r.fields k = v)) =
      l.filter (fun r => decide (r.fields k = v)) := by
  have hperm :
      ((stabilized l).insertionSort (stabLE (getComparator o k))).Perm
        (stabilized l) :=
    List.perm_insertionSort _ _
  have e2 :
      ((stabilized l).insertionSort (stabLE (getComparator o k))).filter
          (fun p => decide (p.1.fields k = v)) =
        (stabilized l).filter (fun p => decide (p.1.fields k = v)) := by
    apply eq_of_perm_of_pairwise (hperm.filter _)
      ((pairwise_insertionSort_stab o k (stabilized l)).filter _)
    · apply List.Pairwise.imp_of_mem ?_
        ((stabilized_pairwise_snd_lt l).filter (fun p => decide (p.1.fields k = v)))
      intro p q hp hq hlt
      have hpv : p.1.fields k = v := by simpa using (List.mem_filter.mp hp).2
      have hqv : q.1.fields k = v := by simpa using (List.mem_filter.mp hq).2
      rw [stabLE_getComparator_iff]
      exact .inr ⟨hpv.trans hqv.symm, Nat.le_of_lt hlt⟩
    · intro a ha b hb h1 h2
      exact stabLE_antisymm_mem o k l hperm a (List.mem_of_mem_filter ha) b
        (List.mem_of_mem_filter hb) h1 h2
  have e1 : (stableSort l (getComparator o k)).filter
      (fun r => decide (r.fields k = v)) =
      (((stabilized l).insertionSort (stabLE (getComparator o k))).filter
        (fun p => decide (p.1.fields k = v))).map (fun el => el.1) := by
    show (((stabilized l).insertionSort (stabLE (getComparator o k))).map
        (fun el => el.1)).filter (fun r => decide (r.fields k = v)) = _
    rw [List.filter_map]
    rfl
  have e3 : l.filter (fun r => decide (r.fields k = v)) =
      ((stabilized l).filter (fun p => decide (p.1.fields k = v))).map
        (fun el => el.1) := by
    conv_lhs => rw [← stabilized_map_fst l]
    rw [List.filter_map]
    rfl
  rw [e1, e3, e2]

/-- C3 counterexample: two rows with equal values in the sorted column; the
index tie-break keeps them in input order for both directions, so the
descending sort is not the reverse of the ascending sort. -/
theorem claim_C3_counterexample :
    stableSort [constRow "a" 0, constRow "b" 0] (getComparator Order.desc "x") ≠
      (stableSort [constRow "a" 0, constRow "b" 0]
        (getComparator Order.asc "x")).reverse := by
  intro hEq
  have h := congrArg (List.map Row.id) hEq
  have hL : (stableSort [constRow "a" 0, constRow "b" 0]
      (getComparator Order.desc "x")).map Row.id = ["a", "b"] := by decide
  have hR : ((stableSort [constRow "a" 0, constRow "b" 0]
      (getComparator Order.asc "x")).reverse).map Row.id = ["b", "a"] := by decide
  rw [hL, hR] at h
  exact absurd h (by decide)

/-- C3 (amended): for every row list whose values in the sort column are
pairwise distinct, sorting descending yields exactly the reverse of sorting
ascending; with equal values in the column the law fails, because the index
tie-break keeps equal-valued rows in input order under both directions (see
the counterexample). -/
theorem claim_C3_amended (k : String) (l : List (Row V))
    (hdist : l.Pairwise fun a b => a.fields k ≠ b.fields k) :
    stableSort l (getComparator Order.desc k) =
      (stableSort l (getComparator Order.asc k)).reverse := by
  have hpermD :
      ((stabilized l).insertionSort (stabLE (getComparator Order.desc k))).Perm
        (stabilized l) :=
    List.perm_insertionSort _ _
  have hpermA :
      ((stabilized l).insertionSort (stabLE (getComparator Order.asc k))).Perm
        (stabilized l) :=
    List.perm_insertionSort _ _
  have key :
      (stabilized l).insertionSort (stabLE (getComparator Order.desc k)) =
        ((stabilized l).insertionSort (stabLE (getComparator Order.asc k))).reverse := by
    apply eq_of_perm_of_pairwise
      (hpermD.trans (hpermA.symm.trans (List.reverse_perm _).symm))
      (pairwise_insertionSort_stab Order.desc k (stabilized l))
    · rw [List.pairwise_reverse]
      apply List.Pairwise.imp_of_mem ?_
        (pairwise_insertionSort_stab Order.asc k (stabilized l))
      intro p q hp hq hle
      rw [stabLE_getComparator_iff] at hle ⊢
      rcases hle with hlt | ⟨hv, _⟩
      · exact .inl hlt
      · have hpq : p = q := stabilized_eq_of_fields_eq k hdist
          (hpermA.subset hp) (hpermA.subset hq) hv
        subst hpq
        exact .inr ⟨rfl, le_refl _⟩
    · intro a ha b hb h1 h2
      exact stabLE_antisymm_mem Order.desc k l hpermD a ha b hb h1 h2
  show ((stabilized l).insertionSort (stabLE (getComparator Order.desc k))).map
      (fun el => el.1) =
    (((stabilized l).insertionSort (stabLE (getComparator Order.asc k))).map
      (fun el => el.1)).reverse
  rw [key, List.map_reverse]

/-- C3 witness: two rows with distinct values in the sorted column satisfy
the amended reverse law. -/
theorem claim_C3_witness :
    stableSort [constRow "a" 1, constRow "b" 0] (getComparator Order.desc "x") =
      (stableSort [constRow "a" 1, constRow "b" 0]
        (getComparator Order.asc "x")).reverse :=
  claim_C3_amended "x" [constRow "a" 1, constRow "b" 0] (by decide)

end Tradai
